import Mathlib

/-
  Shallow embedding of the quad-vscode core logic:
  - DocumentationService (region locator, find-end, parameter extraction,
    already-documented check, comment cleanup), and
  - GeminiService quota state machine (checkQuota, incrementUsage,
    getUsageStats, generateDocumentation control flow).

  Strings are modelled as lists of characters.  The per-language detection
  regexes of the source are modelled by a small executable regular-expression
  engine with backtracking priority matching the host regex semantics
  (greedy quantifiers, leftmost alternatives, one capture group).
-/

/-- Character strings, modelled as lists of characters. -/
abbrev Str := List Char

/-- Whitespace class used by the host trim and by the regex class for
whitespace: space, tab, newline, carriage return, vertical tab, form feed. -/
def jsWsp (c : Char) : Bool :=
  c = ' ' || c = '\t' || c = '\n' || c = '\r' || c = '\x0b' || c = '\x0c'

/-- Word-character class of the host regexes: letters, digits, underscore. -/
def wordChar (c : Char) : Bool :=
  ('a' ≤ c && c ≤ 'z') || ('A' ≤ c && c ≤ 'Z') || ('0' ≤ c && c ≤ '9') || c = '_'

/-- Left trim. -/
def jsTrimLeft (s : Str) : Str := s.dropWhile jsWsp

/-- Right trim. -/
def jsTrimRight (s : Str) : Str := (s.reverse.dropWhile jsWsp).reverse

/-- Host string trim: strip whitespace from both ends. -/
def jsTrim (s : Str) : Str := jsTrimRight (jsTrimLeft s)

/-- Split a string on a separator character; models `text.split(sep)`. -/
def splitOnChar (sep : Char) : Str → List Str
  | [] => [[]]
  | c :: cs =>
    if c = sep then [] :: splitOnChar sep cs
    else
      match splitOnChar sep cs with
      | [] => [[c]]
      | l :: ls => (c :: l) :: ls

/-- Join a list of strings with a separator character; models `join(sep)`. -/
def joinWith (sep : Char) : List Str → Str
  | [] => []
  | [l] => l
  | l :: ls => l ++ sep :: joinWith sep ls

theorem splitOnChar_ne_nil (sep : Char) (s : Str) : splitOnChar sep s ≠ [] := by
  cases s with
  | nil => simp [splitOnChar]
  | cons c cs =>
    simp only [splitOnChar]
    split
    · simp
    · split <;> simp_all

theorem joinWith_splitOnChar (sep : Char) (s : Str) :
    joinWith sep (splitOnChar sep s) = s := by
  induction s with
  | nil => rfl
  | cons c cs ih =>
    simp only [splitOnChar]
    by_cases h : c = sep
    · subst h
      simp only [if_pos rfl]
      rcases hs : splitOnChar c cs with _ | ⟨l, ls⟩
      · exact absurd hs (splitOnChar_ne_nil c cs)
      · rw [hs] at ih
        cases ls with
        | nil => simpa [joinWith, hs] using ih
        | cons l' ls' => simpa [joinWith, hs] using ih
    · simp only [if_neg h]
      rcases hs : splitOnChar sep cs with _ | ⟨l, ls⟩
      · exact absurd hs (splitOnChar_ne_nil sep cs)
      · rw [hs] at ih
        cases ls with
        | nil => simpa [joinWith] using ih
        | cons l' ls' => simpa [joinWith] using ih

theorem splitOnChar_pieces (sep : Char) (s : Str) :
    (∀ l, (splitOnChar sep s).head? = some l → l <+: s) ∧
      (∀ l ∈ splitOnChar sep s, l <:+: s) := by
  induction s with
  | nil =>
    constructor
    · intro l hl
      simp only [splitOnChar, List.head?_cons, Option.some.injEq] at hl
      subst hl
      exact List.nil_prefix
    · intro l hl
      simp only [splitOnChar, List.mem_singleton] at hl
      subst hl
      exact List.nil_infix
  | cons c cs ih =>
    by_cases h : c = sep
    · constructor
      · intro l hl
        simp only [splitOnChar, if_pos h, List.head?_cons, Option.some.injEq] at hl
        subst hl
        exact List.nil_prefix
      · intro l hl
        simp only [splitOnChar, if_pos h, List.mem_cons] at hl
        rcases hl with hl | hl
        · subst hl
          exact List.nil_infix
        · rcases ih.2 l hl with ⟨u, v, huv⟩
          exact ⟨c :: u, v, by simp [huv]⟩
    · rcases hs : splitOnChar sep cs with _ | ⟨m, ms⟩
      · exact absurd hs (splitOnChar_ne_nil sep cs)
      · have hsplit : splitOnChar sep (c :: cs) = (c :: m) :: ms := by
          simp [splitOnChar, if_neg h, hs]
        have hmPre : m <+: cs := ih.1 m (by rw [hs]; rfl)
        constructor
        · intro l hl
          rw [hsplit] at hl
          simp only [List.head?_cons, Option.some.injEq] at hl
          subst hl
          rcases hmPre with ⟨t, ht⟩
          exact ⟨t, by simp [ht]⟩
        · intro l hl
          rw [hsplit] at hl
          simp only [List.mem_cons] at hl
          rcases hl with hl | hl
          · subst hl
            rcases hmPre with ⟨t, ht⟩
            exact ⟨[], t, by simp [ht]⟩
          · rcases ih.2 l (by rw [hs]; exact List.mem_cons_of_mem m hl) with ⟨u, v, huv⟩
            exact ⟨c :: u, v, by simp [huv]⟩

theorem mem_splitOnChar_infix (sep : Char) (s : Str) :
    ∀ l ∈ splitOnChar sep s, l <:+: s :=
  (splitOnChar_pieces sep s).2

/-
  Regular-expression engine.  The source locates functions with per-language
  host regexes; the engine below covers exactly the constructs those regexes
  use: character classes, literal sequences, greedy class star, optional
  groups, alternation, a greedy non-capturing group repetition, one capture
  group, and the end anchor.  Matching returns candidate results in
  backtracking priority order (greedy quantifiers first, left alternative
  first), so the head of the list is the host result.
-/

/-- Regular expressions over characters, sufficient for the detection
patterns of the source. -/
inductive RE where
  | eps : RE
  | eos : RE
  | cls : (Char → Bool) → RE
  | star : (Char → Bool) → RE
  | seq : RE → RE → RE
  | alt : RE → RE → RE
  | opt : RE → RE
  | rep : RE → RE
  | grp : RE → RE

/-- Greedy iteration (one or more times) of a sub-matcher, consuming at least
one character per iteration, longest-first.  Fuel bounds the iteration
count. -/
def repIter (f : Str → List (Str × Option Str)) : Nat → Str → List (Str × Option Str)
  | 0, _ => []
  | fuel + 1, s =>
    (f s).flatMap fun pr =>
      if pr.1.length < s.length then
        ((repIter f fuel pr.1).map fun pr2 =>
          (pr2.1, pr.2.orElse fun _ => pr2.2)) ++ [pr]
      else []

/-- Match a regular expression against a prefix of the input.  Returns all
candidate (rest-of-input, capture) pairs in backtracking priority order. -/
def mRE : RE → Str → List (Str × Option Str)
  | .eps, s => [(s, none)]
  | .eos, s => if s.isEmpty then [(s, none)] else []
  | .cls p, s =>
    match s with
    | [] => []
    | c :: cs => if p c then [(cs, none)] else []
  | .star p, s =>
    let n := (s.takeWhile p).length
    (List.range (n + 1)).map fun k => (s.drop (n - k), none)
  | .seq a b, s =>
    (mRE a s).flatMap fun pr =>
      (mRE b pr.1).map fun pr2 => (pr2.1, pr.2.orElse fun _ => pr2.2)
  | .alt a b, s => mRE a s ++ mRE b s
  | .opt a, s => mRE a s ++ [(s, none)]
  | .rep a, s => repIter (fun t => mRE a t) s.length s
  | .grp a, s =>
    (mRE a s).map fun pr => (pr.1, some (s.take (s.length - pr.1.length)))

/-- Anchored match at the start of the input; returns the capture of group 1
when the whole pattern matches somewhere from position 0. -/
def reMatchHead (r : RE) (s : Str) : Option (Option Str) :=
  match mRE r s with
  | [] => none
  | pr :: _ => some pr.2

/-- Unanchored search: try the pattern at every position, leftmost first;
models `string.match(re)` for unanchored regexes. -/
def reSearch (r : RE) : Str → Option (Option Str)
  | [] => reMatchHead r []
  | c :: cs =>
    match reMatchHead r (c :: cs) with
    | some cap => some cap
    | none => reSearch r cs

/-- Literal character. -/
def reCh (c : Char) : RE := .cls fun d => d = c

/-- Literal string. -/
def lit (s : String) : RE :=
  s.toList.foldr (fun c r => .seq (reCh c) r) .eps

/-- Sequence of a list of regular expressions. -/
def reSeqL (l : List RE) : RE := l.foldr RE.seq .eps

/-- Alternation of a non-empty list, left alternative preferred. -/
def reAlts : List RE → RE
  | [] => .eps
  | [r] => r
  | r :: rs => .alt r (reAlts rs)

/-- Pattern piece for the host regex class backslash-s star. -/
def wsStar : RE := .star jsWsp

/-- Pattern piece for the host regex class backslash-s plus. -/
def wsPlus : RE := .seq (.cls jsWsp) (.star jsWsp)

/-- Pattern piece for the host regex class backslash-w plus. -/
def wrdPlus : RE := .seq (.cls wordChar) (.star wordChar)

/-- Character class excluding the closing parenthesis. -/
def notRParen (c : Char) : Bool := !(c = ')')

/-- Substring test; models `string.includes(pat)`. -/
def strContains (pat : Str) : Str → Bool
  | [] => pat.isEmpty
  | c :: cs => pat.isPrefixOf (c :: cs) || strContains pat cs

/-
  Per-language function-detection patterns, transcribed from
  DocumentationService.getFunctionPatterns.  Each host regex is anchored at
  the start of the line; the transcription follows the regex text
  construct-by-construct.
-/

/-- Patterns for typescript. -/
def tsPatterns : List RE :=
  [ reSeqL [wsStar, .opt (reSeqL [lit "export", wsPlus]),
      .opt (reSeqL [lit "async", wsPlus]), lit "function", wsPlus, .grp wrdPlus],
    reSeqL [wsStar, .opt (reSeqL [lit "export", wsPlus]), lit "const", wsPlus,
      .grp wrdPlus, wsStar, reCh '=', wsStar,
      .opt (reSeqL [lit "async", wsPlus]), reCh '('],
    reSeqL [wsStar, .opt (reAlts [lit "public", lit "private", lit "protected"]),
      wsStar, .opt (reSeqL [lit "async", wsPlus]), .grp wrdPlus, wsStar, reCh '('] ]

/-- Patterns for javascript (also the fallback set for unknown languages). -/
def jsPatterns : List RE :=
  [ reSeqL [wsStar, .opt (reSeqL [lit "export", wsPlus]),
      .opt (reSeqL [lit "async", wsPlus]), lit "function", wsPlus, .grp wrdPlus],
    reSeqL [wsStar, .opt (reSeqL [lit "export", wsPlus]),
      reAlts [lit "const", lit "let", lit "var"], wsPlus, .grp wrdPlus, wsStar,
      reCh '=', wsStar, .opt (reSeqL [lit "async", wsPlus]), reCh '('],
    reSeqL [wsStar, .grp wrdPlus, wsStar, reCh ':', wsStar,
      .opt (reSeqL [lit "async", wsPlus]), lit "function"] ]

/-- Patterns for python. -/
def pyPatterns : List RE :=
  [ reSeqL [wsStar, .opt (reSeqL [lit "async", wsPlus]), lit "def", wsPlus,
      .grp wrdPlus, wsStar, reCh '('] ]

/-- Patterns for java. -/
def javaPatterns : List RE :=
  [ reSeqL [wsStar, .opt (reAlts [lit "public", lit "private", lit "protected"]),
      wsStar, .opt (lit "static"), wsStar, wrdPlus, wsPlus, .grp wrdPlus,
      wsStar, reCh '('] ]

/-- Patterns for go. -/
def goPatterns : List RE :=
  [ reSeqL [wsStar, lit "func", wsPlus,
      .opt (reSeqL [reCh '(', wrdPlus, wsPlus, .opt (reCh '*'), wrdPlus,
        reCh ')', wsPlus]),
      .grp wrdPlus, wsStar, reCh '('] ]

/-- Patterns for rust. -/
def rustPatterns : List RE :=
  [ reSeqL [wsStar, .opt (reSeqL [lit "pub", wsPlus]),
      .opt (reSeqL [lit "async", wsPlus]), lit "fn", wsPlus, .grp wrdPlus] ]

/-- Patterns for cpp. -/
def cppPatterns : List RE :=
  [ reSeqL [wsStar, .rep (reSeqL [wrdPlus, wsPlus]), .grp wrdPlus, wsStar,
      reCh '(', .star notRParen, reCh ')', wsStar, .opt (lit "const"), wsStar,
      .opt (reCh '\x7b'), .eos] ]

/-- Patterns for csharp. -/
def csharpPatterns : List RE :=
  [ reSeqL [wsStar,
      .opt (reAlts [lit "public", lit "private", lit "protected", lit "internal"]),
      wsStar, .opt (lit "static"), wsStar, wrdPlus, wsPlus, .grp wrdPlus,
      wsStar, reCh '('] ]

/-- Patterns for php. -/
def phpPatterns : List RE :=
  [ reSeqL [wsStar, .opt (reAlts [lit "public", lit "private", lit "protected"]),
      wsStar, .opt (lit "static"), wsStar, lit "function", wsPlus, .grp wrdPlus] ]

/-- Patterns for ruby. -/
def rubyPatterns : List RE :=
  [ reSeqL [wsStar, lit "def", wsPlus, .grp wrdPlus] ]

/-- DocumentationService.getFunctionPatterns: the per-language table with the
javascript set as default. -/
def getFunctionPatterns (language : String) : List RE :=
  if language = "typescript" then tsPatterns
  else if language = "javascript" then jsPatterns
  else if language = "python" then pyPatterns
  else if language = "java" then javaPatterns
  else if language = "go" then goPatterns
  else if language = "rust" then rustPatterns
  else if language = "cpp" then cppPatterns
  else if language = "csharp" then csharpPatterns
  else if language = "php" then phpPatterns
  else if language = "ruby" then rubyPatterns
  else jsPatterns

/-- LANGUAGE_STYLE_MAP of the source: language identifier to documentation
style tag. -/
def LANGUAGE_STYLE_MAP : List (String × String) :=
  [("typescript", "tsdoc"), ("javascript", "jsdoc"),
   ("typescriptreact", "tsdoc"), ("javascriptreact", "jsdoc"),
   ("python", "google"), ("java", "javadoc"), ("kotlin", "javadoc"),
   ("go", "godoc"), ("rust", "rustdoc"), ("cpp", "doxygen"),
   ("c", "doxygen"), ("csharp", "xmldoc"), ("php", "phpdoc"),
   ("ruby", "yard"), ("swift", "swift")]

/-- Parsed function information, as in the source ParsedFunction record
(the optional returnType and className fields are never set by the code
under analysis and are omitted). -/
structure ParsedFunction where
  name : Str
  startLine : Nat
  endLine : Nat
  parameters : List Str
  isAsync : Bool
  isMethod : Bool
  code : Str
deriving Repr, DecidableEq

/-- DocumentationService.getIndentLevel: length of the leading whitespace. -/
def getIndentLevel (line : Str) : Nat := (line.takeWhile jsWsp).length

/-- Python branch of DocumentationService.findFunctionEnd: scan forward from
line i; skip blank and comment-only lines; on the first remaining line whose
indentation is at most the start indentation return the previous index; at
end of document return the last line index.  Fuel is the number of remaining
loop iterations; the caller passes the document length, which bounds the
loop of the source. -/
def pyFindEndAux (lines : List Str) (startIndent : Nat) : Nat → Nat → Nat
  | 0, _ => lines.length - 1
  | fuel + 1, i =>
    if i < lines.length then
      let t := jsTrim (lines.getD i [])
      if t.isEmpty || (['#'] : Str).isPrefixOf t then
        pyFindEndAux lines startIndent fuel (i + 1)
      else if getIndentLevel (lines.getD i []) ≤ startIndent ∧ ¬t.isEmpty then
        i - 1
      else pyFindEndAux lines startIndent fuel (i + 1)
    else lines.length - 1

/-- One line of the brace scan of DocumentationService.findFunctionEnd:
fold the (count, started) state over the characters of the line. -/
def braceScanLine (l : Str) (st : Int × Bool) : Int × Bool :=
  l.foldl
    (fun acc c =>
      if c = '\x7b' then (acc.1 + 1, true)
      else if c = '\x7d' then (acc.1 - 1, acc.2)
      else acc)
    st

/-- Brace branch of DocumentationService.findFunctionEnd: scan lines from the
start line updating the brace count; return the first line after which a
brace has been seen and the count is zero, else the start line.  Fuel bounds
the loop as in pyFindEndAux. -/
def braceFindEndAux (lines : List Str) (startLine : Nat) : Nat → Nat → Int → Bool → Nat
  | 0, _, _, _ => startLine
  | fuel + 1, i, bc, started =>
    if i < lines.length then
      let st2 := braceScanLine (lines.getD i []) (bc, started)
      if st2.2 ∧ st2.1 = 0 then i
      else braceFindEndAux lines startLine fuel (i + 1) st2.1 st2.2
    else startLine

/-- DocumentationService.findFunctionEnd. -/
def findFunctionEnd (lines : List Str) (startLine : Nat) (language : String) : Nat :=
  if language = "python" then
    pyFindEndAux lines (getIndentLevel (lines.getD startLine [])) lines.length
      (startLine + 1)
  else braceFindEndAux lines startLine lines.length startLine 0 false

/-- The parameter-list regex of DocumentationService.extractParameters: an
opening parenthesis, a captured run of non-closing-parenthesis characters,
and a closing parenthesis, searched unanchored. -/
def paramRE : RE := reSeqL [reCh '(', .grp (.star notRParen), reCh ')']

/-- DocumentationService.extractParameters. -/
def extractParameters (line : Str) (_language : String) : List Str :=
  match reSearch paramRE line with
  | none => []
  | some cap =>
    let paramsStr := jsTrim (cap.getD [])
    if paramsStr.isEmpty then []
    else (splitOnChar ',' paramsStr).map jsTrim

/-- Try every pattern of the list in order on one line; first match wins. -/
def matchLine (patterns : List RE) (line : Str) : Option (Option Str) :=
  match patterns with
  | [] => none
  | p :: ps =>
    match reMatchHead p line with
    | some cap => some cap
    | none => matchLine ps line

/-- Backward scan of DocumentationService.findFunctionAtPosition: check line
i, then i-1, ..., stopping after the given number of extra steps or at
line 0.  Returns the matched line index and the capture. -/
def scanBack (patterns : List RE) (lines : List Str) : Nat → Nat → Option (Nat × Option Str)
  | 0, _ =>
    match matchLine patterns (lines.getD 0 []) with
    | some cap => some (0, cap)
    | none => none
  | i + 1, 0 =>
    match matchLine patterns (lines.getD (i + 1) []) with
    | some cap => some (i + 1, cap)
    | none => none
  | i + 1, steps + 1 =>
    match matchLine patterns (lines.getD (i + 1) []) with
    | some cap => some (i + 1, cap)
    | none => scanBack patterns lines i steps

/-- DocumentationService.findFunctionAtPosition. -/
def findFunctionAtPosition (text : Str) (lineNumber : Nat) (language : String) :
    Option ParsedFunction :=
  let lines := splitOnChar '\n' text
  let patterns := getFunctionPatterns language
  match scanBack patterns lines lineNumber 20 with
  | none => none
  | some (i, cap) =>
    let endLine := findFunctionEnd lines i language
    let code := joinWith '\n' ((lines.drop i).take (endLine + 1 - i))
    let line := lines.getD i []
    some
      { name :=
          match cap with
          | some c => if c.isEmpty then "anonymous".toList else c
          | none => "anonymous".toList
        startLine := i
        endLine := endLine
        parameters := extractParameters line language
        isAsync := strContains "async".toList line
        isMethod := false
        code := code }

/-- DocumentationService.hasDocumentation: line 0 is never documented; for a
later line inspect the trimmed text of the preceding line. -/
def hasDocumentation (lines : List Str) (lineNumber : Nat) : Bool :=
  if lineNumber = 0 then false
  else
    let prevLine := jsTrim (lines.getD (lineNumber - 1) [])
    ("*/".toList).isSuffixOf prevLine ||
      ("\"\"\"".toList).isSuffixOf prevLine ||
      ("\x27\x27\x27".toList).isSuffixOf prevLine ||
      ("///".toList).isPrefixOf prevLine

/-
  DocumentationService.cleanDocumentation.  The source first removes fenced
  code-block delimiters with two global multiline regex replacements —
  a line-start triple backtick with an optional word tag (consuming the line
  break when the whole line is such a marker), then a line-end triple
  backtick — trims the result, and for the styles jsdoc, tsdoc and javadoc
  ensures the leading and trailing block-comment delimiters.
-/

/-- First fence replacement, per original line of the document: a line
starting with a triple backtick loses the backticks and the following word
characters; when nothing remains and the line is not the last one, its line
break was consumed too, so the line disappears. -/
def stripFenceOpens : List Str → List Str
  | [] => []
  | [l] =>
    if ("```".toList).isPrefixOf l then [(l.drop 3).dropWhile wordChar]
    else [l]
  | l :: l2 :: ls =>
    if ("```".toList).isPrefixOf l then
      let rest := (l.drop 3).dropWhile wordChar
      if rest.isEmpty then stripFenceOpens (l2 :: ls)
      else rest :: stripFenceOpens (l2 :: ls)
    else l :: stripFenceOpens (l2 :: ls)

/-- Second fence replacement: drop a triple backtick that closes a line. -/
def stripFenceClose (l : Str) : Str :=
  if ("```".toList).isSuffixOf l then l.take (l.length - 3) else l

/-- DocumentationService.cleanDocumentation. -/
def cleanDocumentation (doc : Str) (style : String) : Str :=
  let lines1 := stripFenceOpens (splitOnChar '\n' doc)
  let lines2 := lines1.map stripFenceClose
  let cleaned := jsTrim (joinWith '\n' lines2)
  if style = "jsdoc" ∨ style = "tsdoc" ∨ style = "javadoc" then
    let c1 :=
      if ("/**".toList).isPrefixOf cleaned then cleaned
      else "/**\n".toList ++ cleaned
    if ("*/".toList).isSuffixOf c1 then c1 else c1 ++ "\n */".toList
  else cleaned

/-
  GeminiService quota state machine.  The persisted key-value store holds a
  last-usage-date string and two counters; the current local date is passed
  explicitly.  Each operation returns its result together with the store
  contents after the call, so absence of writes is visible in the result.
-/

/-- Persisted quota keys of the extension global state. -/
structure QuotaState where
  lastUsageDate : String
  todayUsage : Nat
  totalUsage : Nat
deriving Repr, DecidableEq

/-- Shared-pool daily limit of the source. -/
def DAILY_POOL_LIMIT : Nat := 20

/-- Own-key daily limit of the source. -/
def DAILY_OWN_KEY_LIMIT : Nat := 1500

/-- GeminiService.checkQuota: on a date rollover reset the stored date and
the today counter and report quota available; otherwise compare the today
counter against the limit of the active mode. -/
def checkQuota (today : String) (isUsingPool : Bool) (s : QuotaState) :
    Bool × QuotaState :=
  if s.lastUsageDate ≠ today then
    (true, { lastUsageDate := today, todayUsage := 0, totalUsage := s.totalUsage })
  else
    let limit := if isUsingPool then DAILY_POOL_LIMIT else DAILY_OWN_KEY_LIMIT
    (decide (s.todayUsage < limit), s)

/-- GeminiService.incrementUsage: add one to both counters. -/
def incrementUsage (s : QuotaState) : QuotaState :=
  { s with todayUsage := s.todayUsage + 1, totalUsage := s.totalUsage + 1 }

/-- Error kinds thrown by GeminiService.generateDocumentation: the missing
API-key error, the QUOTA error (daily limit or HTTP 429), and pass-through
of any other failure. -/
inductive GenError where
  | apiKey : GenError
  | quota : GenError
  | other : String → GenError
deriving Repr, DecidableEq

/-- Outcome of the external model call. -/
inductive ApiOutcome where
  | ok : Str → ApiOutcome
  | err429 : ApiOutcome
  | errOther : String → ApiOutcome
deriving Repr, DecidableEq

/-- GeminiService.generateDocumentation control flow: fail when no model is
configured; fail with the QUOTA error when checkQuota denies; otherwise
perform the external call, incrementing the counters on success and mapping
an HTTP-429 failure to the QUOTA error.  The last component records whether
the external call was attempted. -/
def generateDocumentation (today : String) (isUsingPool : Bool) (hasModel : Bool)
    (api : ApiOutcome) (s : QuotaState) : Except GenError Str × QuotaState × Bool :=
  if !hasModel then (.error .apiKey, s, false)
  else
    let cq := checkQuota today isUsingPool s
    if !cq.1 then (.error .quota, cq.2, false)
    else
      match api with
      | .ok text => (.ok text, incrementUsage cq.2, true)
      | .err429 => (.error .quota, cq.2, true)
      | .errOther m => (.error (.other m), cq.2, true)

/-- Usage statistics record of the source. -/
structure UsageStats where
  todayRequests : Nat
  totalRequests : Nat
  dailyLimit : Nat
  hasOwnKey : Bool
  poolRemaining : Int
deriving Repr, DecidableEq

/-- GeminiService.getUsageStats: read the stored values, report zero today
requests when the stored date is stale, and clamp the remaining pool at
zero; no key is written, so the store is returned unchanged. -/
def getUsageStats (today : String) (isUsingPool : Bool) (s : QuotaState) :
    UsageStats × QuotaState :=
  let todayRequests := if s.lastUsageDate ≠ today then 0 else s.todayUsage
  ({ todayRequests := todayRequests
     totalRequests := s.totalUsage
     dailyLimit := if isUsingPool then DAILY_POOL_LIMIT else DAILY_OWN_KEY_LIMIT
     hasOwnKey := !isUsingPool
     poolRemaining :=
       if isUsingPool then max 0 ((DAILY_POOL_LIMIT : Int) - todayRequests)
       else 0 },
   s)

/-
  Specification-side characterisations used by the theorems below, and the
  concrete documents of the scenario claims.
-/

/-- A python dedent boundary: a line that is neither blank nor comment-only
after trimming and whose indentation is at most the start indentation. -/
def isPyBoundary (startIndent : Nat) (l : Str) : Prop :=
  jsTrim l ≠ [] ∧ ¬(['#'] : Str) <+: jsTrim l ∧ getIndentLevel l ≤ startIndent

instance (startIndent : Nat) (l : Str) : Decidable (isPyBoundary startIndent l) := by
  unfold isPyBoundary
  infer_instance

/-- Index of the first python dedent boundary at or after line i (fuelled,
the fuel passed by callers is the document length). -/
def firstPyBoundary (lines : List Str) (startIndent : Nat) : Nat → Nat → Option Nat
  | 0, _ => none
  | fuel + 1, i =>
    if i < lines.length then
      if isPyBoundary startIndent (lines.getD i []) then some i
      else firstPyBoundary lines startIndent fuel (i + 1)
    else none

/-- Specification-side python find-end: the line immediately preceding the
first later dedent boundary, or the last line of the document when no
boundary exists. -/
def pyEndSpec (lines : List Str) (startLine : Nat) : Nat :=
  match firstPyBoundary lines (getIndentLevel (lines.getD startLine []))
      lines.length (startLine + 1) with
  | some j => j - 1
  | none => lines.length - 1

/-- Net brace count of a line: +1 per opening brace, -1 per closing brace. -/
def netBraces : Str → Int
  | [] => 0
  | c :: cs => (if c = '\x7b' then 1 else if c = '\x7d' then -1 else 0) + netBraces cs

/-- Whether a line contains an opening brace. -/
def hasOpenBrace : Str → Bool
  | [] => false
  | c :: cs => c = '\x7b' || hasOpenBrace cs

/-- Net brace count over the first k lines starting at line s. -/
def preNet (lines : List Str) (s k : Nat) : Int :=
  (((lines.drop s).take k).map netBraces).sum

/-- Whether an opening brace occurs in the first k lines starting at s. -/
def preHasOpen (lines : List Str) (s k : Nat) : Bool :=
  ((lines.drop s).take k).any hasOpenBrace

/-- First line index s + k such that an opening brace occurs in lines
s..s+k and the running brace count over those lines is exactly zero
(fuelled; callers pass the document length). -/
def firstBalanced (lines : List Str) (s : Nat) : Nat → Nat → Option Nat
  | 0, _ => none
  | fuel + 1, k =>
    if s + k < lines.length then
      if preHasOpen lines s (k + 1) ∧ preNet lines s (k + 1) = 0 then some (s + k)
      else firstBalanced lines s fuel (k + 1)
    else none

/-- A documentation block that is already clean: starts with the opening
block-comment delimiter, ends with the closing one, and contains no fenced
code-block delimiter. -/
def alreadyClean (doc : Str) : Bool :=
  ("/**".toList).isPrefixOf doc && ("*/".toList).isSuffixOf doc &&
    !strContains ("```".toList) doc

/-- The python scenario document of the spec: a function followed by a blank
line and a dedented line. -/
def pyC1lines : List Str :=
  ["def f():".toList, "    return 1".toList, [], "def g():".toList]

/-- The javascript scenario document of the spec. -/
def c9text : Str :=
  "function add(a, b) \x7b\n  return a + b;\n\x7d".toList

/-
  Helper lemmas.
-/

theorem pyFindEndAux_eq (lines : List Str) (ind : Nat) :
    ∀ fuel i, pyFindEndAux lines ind fuel i =
      (match firstPyBoundary lines ind fuel i with
       | some j => j - 1
       | none => lines.length - 1) := by
  intro fuel
  induction fuel with
  | zero => intro i; rfl
  | succ fuel ih =>
    intro i
    simp only [pyFindEndAux, firstPyBoundary, List.getD_eq_getElem?_getD]
    by_cases hi : i < lines.length
    · simp only [if_pos hi]
      generalize (lines[i]?).getD ([] : Str) = l
      by_cases hb : isPyBoundary ind l
      · rw [if_pos hb]
        obtain ⟨h1, h2, h3⟩ := hb
        have he : (jsTrim l).isEmpty = false := List.isEmpty_eq_false.mpr h1
        have hp : (['#'] : Str).isPrefixOf (jsTrim l) = false := by
          rw [Bool.eq_false_iff]
          intro hcontra
          exact h2 ( List.isPrefixOf_iff_prefix.mp hcontra)
        simp [he, hp, h3, h1]
      · rw [if_neg hb]
        rcases Bool.eq_false_or_eq_true
            ((jsTrim l).isEmpty || (['#'] : Str).isPrefixOf (jsTrim l)) with hc1 | hc1
        · rw [if_pos hc1]
          exact ih (i + 1)
        · have hc1' := hc1
          simp only [Bool.or_eq_false_iff] at hc1'
          have hnot1 : ¬(((jsTrim l).isEmpty ||
              (['#'] : Str).isPrefixOf (jsTrim l)) = true) := by
            rw [hc1]
            simp
          have hnot2 : ¬(getIndentLevel l ≤ ind ∧ ¬(jsTrim l).isEmpty = true) := by
            intro ⟨hle, _⟩
            refine hb ⟨List.isEmpty_eq_false.mp hc1'.1, ?_, hle⟩
            intro hpre
            have hcontra := List.isPrefixOf_iff_prefix.mpr hpre
            rw [hc1'.2] at hcontra
            exact Bool.false_ne_true hcontra
          rw [if_neg hnot1, if_neg hnot2]
          exact ih (i + 1)
    · simp [if_neg hi]

/-- C1 (amended): for Python input, find-end returns the line immediately
preceding the first later non-blank, non-comment line whose indentation is at
or below the start indentation, and the last line index when no such line
exists; for the scenario document `["def f():", "    return 1", "",
"def g():"]` with start line 0 the dedent line is line 3, so the result is
endLine = 2 — the blank line — rather than 1. -/
theorem findFunctionEnd_python_spec :
    (∀ (lines : List Str) (startLine : Nat),
      findFunctionEnd lines startLine "python" = pyEndSpec lines startLine) ∧
    findFunctionEnd pyC1lines 0 "python" = 2 := by
  constructor
  · intro lines startLine
    unfold findFunctionEnd pyEndSpec
    rw [if_pos rfl]
    exact pyFindEndAux_eq lines (getIndentLevel (lines.getD startLine []))
      lines.length (startLine + 1)
  · decide

/-- C1 counterexample: on the scenario document the python find-end returns
line 2 (the blank line), not line 1 as the claim states. -/
theorem findFunctionEnd_python_scenario_counterexample :
    findFunctionEnd pyC1lines 0 "python" = 2 ∧ (2 : Nat) ≠ 1 := by
  constructor
  · decide
  · decide

/-- C4: with the shared pool active, a configured model, the stored usage
date equal to the current date and the today counter at the daily pool limit
of 20, generateDocumentation fails with the QUOTA error, the external call is
not attempted, and the stored counters are unchanged. -/
theorem generateDocumentation_quota_exhausted (today : String) (api : ApiOutcome)
    (s : QuotaState) (hdate : s.lastUsageDate = today)
    (hcount : s.todayUsage = DAILY_POOL_LIMIT) :
    generateDocumentation today true true api s = (.error .quota, s, false) := by
  simp [generateDocumentation, checkQuota, hdate, hcount, DAILY_POOL_LIMIT]

/-- Witness for C4 at a concrete store: date "d", 20 of 20 requests used. -/
theorem generateDocumentation_quota_exhausted_witness :
    ({ lastUsageDate := "d", todayUsage := 20, totalUsage := 33 } :
        QuotaState).lastUsageDate = "d" ∧
    ({ lastUsageDate := "d", todayUsage := 20, totalUsage := 33 } :
        QuotaState).todayUsage = DAILY_POOL_LIMIT ∧
    generateDocumentation "d" true true (ApiOutcome.ok ("t".toList))
        { lastUsageDate := "d", todayUsage := 20, totalUsage := 33 } =
      (.error .quota, { lastUsageDate := "d", todayUsage := 20, totalUsage := 33 },
        false) :=
  ⟨rfl, rfl,
    generateDocumentation_quota_exhausted "d" (ApiOutcome.ok ("t".toList))
      { lastUsageDate := "d", todayUsage := 20, totalUsage := 33 } rfl rfl⟩

/-- C5: full characterisation of the counter life cycle.  A quota check
resets the stored date and the today counter exactly when the stored date
differs from the current date (keeping the total counter), and otherwise
leaves the store untouched; hence a second check on the same current date
never changes the store again.  Every successful generation adds exactly one
to the today counter and one to the total counter, and neither the check nor
the increment ever decreases either counter apart from that rollover reset
of the today counter. -/
theorem checkQuota_incrementUsage_lifecycle :
    (∀ (today : String) (pool : Bool) (s : QuotaState),
      checkQuota today pool s =
        if s.lastUsageDate = today then
          (decide (s.todayUsage <
            if pool then DAILY_POOL_LIMIT else DAILY_OWN_KEY_LIMIT), s)
        else
          (true, { lastUsageDate := today, todayUsage := 0,
                   totalUsage := s.totalUsage })) ∧
    (∀ (today : String) (pool pool2 : Bool) (s : QuotaState),
      (checkQuota today pool2 ((checkQuota today pool s).2)).2 =
        (checkQuota today pool s).2) ∧
    (∀ s : QuotaState,
      incrementUsage s =
        { lastUsageDate := s.lastUsageDate, todayUsage := s.todayUsage + 1,
          totalUsage := s.totalUsage + 1 }) ∧
    (∀ (today : String) (pool : Bool) (s : QuotaState),
      s.totalUsage ≤ ((checkQuota today pool s).2).totalUsage) ∧
    (∀ s : QuotaState,
      s.totalUsage ≤ (incrementUsage s).totalUsage ∧
        s.todayUsage ≤ (incrementUsage s).todayUsage) := by
  refine ⟨?_, ?_, ?_, ?_, ?_⟩
  · intro today pool s
    unfold checkQuota
    by_cases h : s.lastUsageDate = today
    · simp [h]
    · simp [h]
  · intro today pool pool2 s
    unfold checkQuota
    by_cases h : s.lastUsageDate = today
    · simp [h]
    · simp [h]
  · intro s
    rfl
  · intro today pool s
    unfold checkQuota
    by_cases h : s.lastUsageDate = today
    · simp [h]
    · simp [h]
  · intro s
    exact ⟨Nat.le_succ _, Nat.le_succ _⟩

/-- C10: getUsageStats is a pure read of the persisted quota state — the
store after the call is always the store before it; when the stored usage
date differs from the current date it reports zero today requests (without
resetting anything), and the reported remaining pool is never negative. -/
theorem getUsageStats_pure_read :
    ∀ (today : String) (pool : Bool) (s : QuotaState),
      (getUsageStats today pool s).2 = s ∧
      ((getUsageStats today pool s).1).todayRequests =
        (if s.lastUsageDate = today then s.todayUsage else 0) ∧
      0 ≤ ((getUsageStats today pool s).1).poolRemaining := by
  intro today pool s
  unfold getUsageStats
  refine ⟨rfl, ?_, ?_⟩
  · by_cases h : s.lastUsageDate = today
    · simp [h]
    · simp [h]
  · by_cases hp : pool
    · simp only [hp, if_true]
      exact le_max_left 0 _
    · simp [hp]

/-- C7: the already-documented check is false at line 0, and at any later
line it holds exactly when the trimmed preceding line ends with the
block-comment terminator, a triple double quote, a triple single quote, or
starts with a triple slash. -/
theorem hasDocumentation_characterization :
    ∀ (lines : List Str) (n : Nat),
      hasDocumentation lines 0 = false ∧
      (0 < n →
        (hasDocumentation lines n = true ↔
          ("*/".toList <:+ jsTrim (lines.getD (n - 1) []) ∨
           "\"\"\"".toList <:+ jsTrim (lines.getD (n - 1) []) ∨
           "\x27\x27\x27".toList <:+ jsTrim (lines.getD (n - 1) []) ∨
           "///".toList <+: jsTrim (lines.getD (n - 1) [])))) := by
  intro lines n
  constructor
  · rfl
  · intro hn
    unfold hasDocumentation
    rw [if_neg (Nat.pos_iff_ne_zero.mp hn)]
    simp [Bool.or_eq_true]
    tauto

/-- Witness for C7 at a concrete document whose line 0 ends with the
block-comment terminator. -/
theorem hasDocumentation_characterization_witness :
    (0 : Nat) < 1 ∧ hasDocumentation [" * x */".toList, "f".toList] 1 = true :=
  ⟨Nat.one_pos,
    ((hasDocumentation_characterization [" * x */".toList, "f".toList] 1).2
      Nat.one_pos).mpr (Or.inl (by decide))⟩

/-- C9: on the three-line javascript scenario document with the cursor on
line 0, locate-at-point returns the function named add with parameters a and
b, start line 0 and end line 2. -/
theorem findFunctionAtPosition_js_scenario :
    findFunctionAtPosition c9text 0 "javascript" =
      some { name := "add".toList, startLine := 0, endLine := 2,
             parameters := ["a".toList, "b".toList], isAsync := false,
             isMethod := false, code := c9text } := by
  rfl

theorem scanBack_eq_none_iff (patterns : List RE) (lines : List Str) :
    ∀ steps i, scanBack patterns lines i steps = none ↔
      ∀ j, i - steps ≤ j → j ≤ i →
        matchLine patterns (lines.getD j []) = none := by
  intro steps
  induction steps with
  | zero =>
    intro i
    cases i with
    | zero =>
      cases hm : matchLine patterns (lines.getD 0 []) with
      | some cap =>
        simp only [scanBack, hm]
        constructor
        · intro h
          exact Option.noConfusion h
        · intro h
          have hcontra := h 0 (by omega) (le_refl 0)
          rw [hm] at hcontra
          exact Option.noConfusion hcontra
      | none =>
        simp only [scanBack, hm]
        constructor
        · intro _ j hj1 hj2
          have hj : j = 0 := by omega
          subst hj
          exact hm
        · intro _
          trivial
    | succ i' =>
      cases hm : matchLine patterns (lines.getD (i' + 1) []) with
      | some cap =>
        simp only [scanBack, hm]
        constructor
        · intro h
          exact Option.noConfusion h
        · intro h
          have hcontra := h (i' + 1) (by omega) (le_refl _)
          rw [hm] at hcontra
          exact Option.noConfusion hcontra
      | none =>
        simp only [scanBack, hm]
        constructor
        · intro _ j hj1 hj2
          have hj : j = i' + 1 := by omega
          subst hj
          exact hm
        · intro _
          trivial
  | succ steps ih =>
    intro i
    cases i with
    | zero =>
      cases hm : matchLine patterns (lines.getD 0 []) with
      | some cap =>
        simp only [scanBack, hm]
        constructor
        · intro h
          exact Option.noConfusion h
        · intro h
          have hcontra := h 0 (by omega) (le_refl 0)
          rw [hm] at hcontra
          exact Option.noConfusion hcontra
      | none =>
        simp only [scanBack, hm]
        constructor
        · intro _ j hj1 hj2
          have hj : j = 0 := by omega
          subst hj
          exact hm
        · intro _
          trivial
    | succ i' =>
      cases hm : matchLine patterns (lines.getD (i' + 1) []) with
      | some cap =>
        simp only [scanBack, hm]
        constructor
        · intro h
          exact Option.noConfusion h
        · intro h
          have hcontra := h (i' + 1) (by omega) (le_refl _)
          rw [hm] at hcontra
          exact Option.noConfusion hcontra
      | none =>
        simp only [scanBack, hm]
        rw [ih i']
        constructor
        · intro h j hj1 hj2
          rcases Nat.lt_or_ge j (i' + 1) with hj | hj
          · exact h j (by omega) (by omega)
          · have hj' : j = i' + 1 := by omega
            subst hj'
            exact hm
        · intro h j hj1 hj2
          exact h j (by omega) (by omega)

theorem scanBack_eq_some (patterns : List RE) (lines : List Str) :
    ∀ steps i j cap, scanBack patterns lines i steps = some (j, cap) →
      i - steps ≤ j ∧ j ≤ i ∧
        matchLine patterns (lines.getD j []) = some cap := by
  intro steps
  induction steps with
  | zero =>
    intro i j cap h
    cases i with
    | zero =>
      cases hm : matchLine patterns (lines.getD 0 []) with
      | some cap2 =>
        simp only [scanBack, hm, Option.some.injEq, Prod.mk.injEq] at h
        obtain ⟨hj, hc⟩ := h
        subst hj
        subst hc
        exact ⟨by omega, le_refl _, hm⟩
      | none =>
        simp only [scanBack, hm] at h
        exact Option.noConfusion h
    | succ i' =>
      cases hm : matchLine patterns (lines.getD (i' + 1) []) with
      | some cap2 =>
        simp only [scanBack, hm, Option.some.injEq, Prod.mk.injEq] at h
        obtain ⟨hj, hc⟩ := h
        subst hj
        subst hc
        exact ⟨by omega, le_refl _, hm⟩
      | none =>
        simp only [scanBack, hm] at h
        exact Option.noConfusion h
  | succ steps ih =>
    intro i j cap h
    cases i with
    | zero =>
      cases hm : matchLine patterns (lines.getD 0 []) with
      | some cap2 =>
        simp only [scanBack, hm, Option.some.injEq, Prod.mk.injEq] at h
        obtain ⟨hj, hc⟩ := h
        subst hj
        subst hc
        exact ⟨by omega, le_refl _, hm⟩
      | none =>
        simp only [scanBack, hm] at h
        exact Option.noConfusion h
    | succ i' =>
      cases hm : matchLine patterns (lines.getD (i' + 1) []) with
      | some cap2 =>
        simp only [scanBack, hm, Option.some.injEq, Prod.mk.injEq] at h
        obtain ⟨hj, hc⟩ := h
        subst hj
        subst hc
        exact ⟨by omega, le_refl _, hm⟩
      | none =>
        simp only [scanBack, hm] at h
        obtain ⟨ha, hb, hc⟩ := ih i' j cap h
        exact ⟨by omega, by omega, hc⟩

/-- C6: locate-at-point bases its found/not-found decision only on the
window of lines from 20 before the query line (clamped at the document
start) up to the query line: it returns not-found exactly when no line of
that window matches a pattern of the language — in particular a matching
line outside the window, before or after, never produces a result — and any
returned function starts inside the window. -/
theorem findFunctionAtPosition_window :
    ∀ (text : Str) (lineNumber : Nat) (language : String),
      (findFunctionAtPosition text lineNumber language = none ↔
        ∀ j, lineNumber - 20 ≤ j → j ≤ lineNumber →
          matchLine (getFunctionPatterns language)
            ((splitOnChar '\n' text).getD j []) = none) ∧
      (∀ pf, findFunctionAtPosition text lineNumber language = some pf →
        lineNumber - 20 ≤ pf.startLine ∧ pf.startLine ≤ lineNumber) := by
  intro text L language
  constructor
  · simp only [findFunctionAtPosition]
    cases hs : scanBack (getFunctionPatterns language) (splitOnChar '\n' text) L 20 with
    | none =>
      constructor
      · intro _
        exact (scanBack_eq_none_iff _ _ 20 L).mp hs
      · intro _
        rfl
    | some pr =>
      obtain ⟨i, cap⟩ := pr
      constructor
      · intro h
        exact Option.noConfusion h
      · intro h
        obtain ⟨h1, h2, h3⟩ := scanBack_eq_some _ _ 20 L i cap hs
        rw [h i h1 h2] at h3
        exact Option.noConfusion h3
  · intro pf hpf
    simp only [findFunctionAtPosition] at hpf
    cases hs : scanBack (getFunctionPatterns language) (splitOnChar '\n' text) L 20 with
    | none =>
      rw [hs] at hpf
      exact Option.noConfusion hpf
    | some pr =>
      obtain ⟨i, cap⟩ := pr
      rw [hs] at hpf
      obtain ⟨h1, h2, _⟩ := scanBack_eq_some _ _ 20 L i cap hs
      have hrec := Option.some.inj hpf
      rw [← hrec]
      exact ⟨h1, h2⟩

theorem braceScanLine_eq (l : Str) : ∀ (bc : Int) (st : Bool),
    braceScanLine l (bc, st) = (bc + netBraces l, st || hasOpenBrace l) := by
  induction l with
  | nil =>
    intro bc st
    simp [braceScanLine, netBraces, hasOpenBrace]
  | cons c cs ih =>
    intro bc st
    have hstep : braceScanLine (c :: cs) (bc, st) =
        braceScanLine cs
          (if c = '\x7b' then (bc + 1, true)
           else if c = '\x7d' then (bc - 1, st) else (bc, st)) := rfl
    rw [hstep]
    by_cases h1 : c = '\x7b'
    · rw [if_pos h1, ih]
      simp [netBraces, hasOpenBrace, h1, Prod.ext_iff]
      omega
    · rw [if_neg h1]
      by_cases h2 : c = '\x7d'
      · rw [if_pos h2, ih]
        simp [netBraces, hasOpenBrace, h1, h2, Prod.ext_iff]
        omega
      · rw [if_neg h2, ih]
        simp [netBraces, hasOpenBrace, h1, h2]

theorem preNet_succ (lines : List Str) (s k : Nat) (h : s + k < lines.length) :
    preNet lines s (k + 1) = preNet lines s k + netBraces (lines.getD (s + k) []) := by
  unfold preNet
  rw [List.take_succ, List.getElem?_drop, List.getElem?_eq_getElem h]
  simp [List.getD_eq_getElem?_getD, List.getElem?_eq_getElem h]

theorem preHasOpen_succ (lines : List Str) (s k : Nat) (h : s + k < lines.length) :
    preHasOpen lines s (k + 1) =
      (preHasOpen lines s k || hasOpenBrace (lines.getD (s + k) [])) := by
  unfold preHasOpen
  rw [List.take_succ, List.getElem?_drop, List.getElem?_eq_getElem h]
  simp [List.getD_eq_getElem?_getD, List.getElem?_eq_getElem h]

theorem braceFindEndAux_eq (lines : List Str) (s : Nat) :
    ∀ fuel k,
      braceFindEndAux lines s fuel (s + k) (preNet lines s k) (preHasOpen lines s k) =
        (firstBalanced lines s fuel k).getD s := by
  intro fuel
  induction fuel with
  | zero => intro k; rfl
  | succ fuel ih =>
    intro k
    simp only [braceFindEndAux, firstBalanced]
    by_cases hk : s + k < lines.length
    · simp only [if_pos hk]
      rw [braceScanLine_eq]
      dsimp only
      rw [← preNet_succ lines s k hk, ← preHasOpen_succ lines s k hk]
      by_cases hc : preHasOpen lines s (k + 1) = true ∧ preNet lines s (k + 1) = 0
      · rw [if_pos hc, if_pos hc]
        rfl
      · rw [if_neg hc, if_neg hc]
        exact ih (k + 1)
    · simp only [if_neg hk]
      rfl

/-- C2: for every non-Python language, find-end scans forward from the start
line counting opening braces as +1 and closing braces as -1 over all
characters, and returns the first line — at or after the line on which an
opening brace has been seen — on which the running count is exactly zero;
when no such line exists it returns the start line itself. -/
theorem findFunctionEnd_brace_spec :
    ∀ (lines : List Str) (startLine : Nat) (language : String),
      language ≠ "python" →
      findFunctionEnd lines startLine language =
        (firstBalanced lines startLine lines.length 0).getD startLine := by
  intro lines s language hlang
  unfold findFunctionEnd
  rw [if_neg hlang]
  have h0 := braceFindEndAux_eq lines s lines.length 0
  simpa [preNet, preHasOpen] using h0

/-- Witness for C2 on a concrete two-line javascript document. -/
theorem findFunctionEnd_brace_spec_witness :
    ("javascript" : String) ≠ "python" ∧
    findFunctionEnd ["a() \x7b".toList, "\x7d".toList] 0 "javascript" =
      (firstBalanced ["a() \x7b".toList, "\x7d".toList] 0
        ([("a() \x7b".toList : Str), "\x7d".toList]).length 0).getD 0 :=
  ⟨by decide, findFunctionEnd_brace_spec _ 0 "javascript" (by decide)⟩

/-- Witness for C6 on a one-line document with no match. -/
theorem findFunctionAtPosition_window_witness :
    findFunctionAtPosition ("abc".toList) 0 "javascript" = none :=
  (findFunctionAtPosition_window ("abc".toList) 0 "javascript").1.mpr
    (fun j _ hj => by
      have hj0 : j = 0 := Nat.le_zero.mp hj
      subst hj0
      decide)

theorem strContains_of_infix (pat : Str) :
    ∀ s : Str, pat <:+: s → strContains pat s = true := by
  intro s
  induction s with
  | nil =>
    intro h
    rcases h with ⟨u, v, huv⟩
    simp only [List.append_eq_nil] at huv
    obtain ⟨⟨_, hp⟩, _⟩ := huv
    simp [strContains, hp]
  | cons c cs ih =>
    intro h
    rcases h with ⟨u, v, huv⟩
    cases u with
    | nil =>
      simp only [List.nil_append] at huv
      have hpre : pat <+: c :: cs := ⟨v, huv⟩
      simp [strContains, List.isPrefixOf_iff_prefix.mpr hpre]
    | cons u0 us =>
      simp only [List.cons_append] at huv
      injection huv with h1 h2
      have hinf : pat <:+: cs := ⟨us, v, h2⟩
      simp [strContains, ih hinf]

theorem stripFenceOpens_id :
    ∀ ls : List Str, (∀ l ∈ ls, ("```".toList).isPrefixOf l = false) →
      stripFenceOpens ls = ls := by
  intro ls
  induction ls with
  | nil => intro _; rfl
  | cons l rest ih =>
    intro h
    have hl := h l (List.mem_cons_self l rest)
    have hcnot : ¬(("```".toList).isPrefixOf l = true) := by
      rw [hl]
      simp
    cases rest with
    | nil =>
      simp only [stripFenceOpens]
      rw [if_neg hcnot]
    | cons l2 ls2 =>
      simp only [stripFenceOpens]
      rw [if_neg hcnot]
      exact congrArg (l :: ·) (ih fun x hx => h x (List.mem_cons_of_mem l hx))

theorem stripFenceClose_id (l : Str) (h : ("```".toList).isSuffixOf l = false) :
    stripFenceClose l = l := by
  have hcnot : ¬(("```".toList).isSuffixOf l = true) := by
    rw [h]
    simp
  unfold stripFenceClose
  rw [if_neg hcnot]

theorem jsTrim_of_delims (doc : Str) (h1 : ("/**".toList) <+: doc)
    (h2 : ("*/".toList) <:+ doc) : jsTrim doc = doc := by
  obtain ⟨t, ht⟩ := h1
  obtain ⟨u, hu⟩ := h2
  have hw : jsWsp '/' = false := rfl
  unfold jsTrim jsTrimLeft jsTrimRight
  have hlit : ("/**".toList : Str) = ['/', '*', '*'] := rfl
  have hleft : doc.dropWhile jsWsp = doc := by
    rw [← ht, hlit]
    simp only [List.cons_append, List.nil_append]
    rw [List.dropWhile_cons, hw]
    simp
  rw [hleft]
  have hrev : doc.reverse = '/' :: '*' :: u.reverse := by
    rw [← hu, List.reverse_append]
    rfl
  rw [hrev, List.dropWhile_cons, hw]
  simp only [Bool.false_eq_true, if_false]
  rw [← hrev, List.reverse_reverse]

theorem cleanDocumentation_id (doc : Str) (style : String)
    (hst : style = "jsdoc" ∨ style = "tsdoc" ∨ style = "javadoc")
    (hcl : alreadyClean doc = true) : cleanDocumentation doc style = doc := by
  simp only [alreadyClean, Bool.and_eq_true] at hcl
  obtain ⟨⟨hp, hs⟩, hn⟩ := hcl
  have hnc : strContains ("```".toList) doc = false := by
    simpa using hn
  have hpre : ("/**".toList) <+: doc := List.isPrefixOf_iff_prefix.mp hp
  have hsuf : ("*/".toList) <:+ doc := List.isSuffixOf_iff_suffix.mp hs
  have hlines : ∀ l ∈ splitOnChar '\n' doc,
      ("```".toList).isPrefixOf l = false ∧ ("```".toList).isSuffixOf l = false := by
    intro l hl
    have hinf : l <:+: doc := mem_splitOnChar_infix '\n' doc l hl
    constructor
    · rw [Bool.eq_false_iff]
      intro hc
      have hfence : ("```".toList) <:+: doc :=
        (( List.isPrefixOf_iff_prefix.mp hc).isInfix).trans hinf
      have := strContains_of_infix _ _ hfence
      rw [hnc] at this
      exact Bool.false_ne_true this
    · rw [Bool.eq_false_iff]
      intro hc
      have hfence : ("```".toList) <:+: doc :=
        ((List.isSuffixOf_iff_suffix.mp hc).isInfix).trans hinf
      have := strContains_of_infix _ _ hfence
      rw [hnc] at this
      exact Bool.false_ne_true this
  have hmap : (splitOnChar '\n' doc).map stripFenceClose = splitOnChar '\n' doc := by
    have hcongr : ∀ l ∈ splitOnChar '\n' doc, stripFenceClose l = id l :=
      fun l hl => stripFenceClose_id l (hlines l hl).2
    rw [List.map_congr_left hcongr, List.map_id]
  simp only [cleanDocumentation]
  rw [stripFenceOpens_id _ fun l hl => (hlines l hl).1, hmap, joinWith_splitOnChar,
    jsTrim_of_delims doc hpre hsuf, if_pos hst, if_pos hp, if_pos hs]

/-- C3 (amended): the code normalises delimiters only for the styles jsdoc,
tsdoc and javadoc — for those, cleanDocumentation always returns text
starting with the opening block-comment delimiter and ending with the
closing one, inserting a missing delimiter and never duplicating one already
present (an already-clean block is returned unchanged); the other
brace-comment-family styles of the style map, such as doxygen and phpdoc,
receive no delimiter adjustment. -/
theorem cleanDocumentation_delimiters :
    ∀ (doc : Str) (style : String),
      (style = "jsdoc" ∨ style = "tsdoc" ∨ style = "javadoc") →
      (("/**".toList) <+: cleanDocumentation doc style ∧
        ("*/".toList) <:+ cleanDocumentation doc style) ∧
      (alreadyClean doc = true → cleanDocumentation doc style = doc) := by
  intro doc style hst
  refine ⟨?_, cleanDocumentation_id doc style hst⟩
  simp only [cleanDocumentation]
  rw [if_pos hst]
  generalize jsTrim (joinWith '\n'
    (List.map stripFenceClose (stripFenceOpens (splitOnChar '\n' doc)))) = cleaned
  have hlit2 : ("\n */".toList : Str) = ['\n', ' ', '*', '/'] := rfl
  by_cases hp : ("/**".toList).isPrefixOf cleaned
  · rw [if_pos hp]
    have hpre : ("/**".toList) <+: cleaned := List.isPrefixOf_iff_prefix.mp hp
    by_cases hs2 : ("*/".toList).isSuffixOf cleaned
    · rw [if_pos hs2]
      exact ⟨hpre, List.isSuffixOf_iff_suffix.mp hs2⟩
    · rw [if_neg hs2]
      constructor
      · obtain ⟨t, ht⟩ := hpre
        exact ⟨t ++ "\n */".toList, by rw [← ht, List.append_assoc]⟩
      · refine ⟨cleaned ++ ['\n', ' '], ?_⟩
        rw [hlit2]
        have : (['\n', ' '] : Str) ++ "*/".toList = ['\n', ' ', '*', '/'] := rfl
        rw [← this, List.append_assoc]
  · rw [if_neg hp]
    have hlit1 : ("/**\n".toList : Str) = "/**".toList ++ ['\n'] := rfl
    by_cases hs2 : ("*/".toList).isSuffixOf ("/**\n".toList ++ cleaned)
    · rw [if_pos hs2]
      constructor
      · exact ⟨'\n' :: cleaned, by rw [hlit1, List.append_assoc]; rfl⟩
      · exact List.isSuffixOf_iff_suffix.mp hs2
    · rw [if_neg hs2]
      constructor
      · exact ⟨'\n' :: cleaned ++ "\n */".toList,
          by rw [hlit1, List.append_assoc, List.append_assoc]; rfl⟩
      · refine ⟨("/**\n".toList ++ cleaned) ++ ['\n', ' '], ?_⟩
        rw [hlit2]
        have : (['\n', ' '] : Str) ++ "*/".toList = ['\n', ' ', '*', '/'] := rfl
        rw [← this, List.append_assoc]

/-- Witness for C3 at a concrete already-clean javadoc block. -/
theorem cleanDocumentation_delimiters_witness :
    (("/**".toList) <+: cleanDocumentation ("/** y */".toList) "javadoc" ∧
      ("*/".toList) <:+ cleanDocumentation ("/** y */".toList) "javadoc") ∧
    cleanDocumentation ("/** y */".toList) "javadoc" = "/** y */".toList :=
  have h := cleanDocumentation_delimiters ("/** y */".toList) "javadoc"
    (Or.inr (Or.inr rfl))
  ⟨h.1, h.2 (by decide)⟩

/-- C3 counterexample: the style map sends cpp to doxygen, a style whose
rendered form is a brace comment, yet cleanDocumentation applies no
delimiter fix-up for it: on input "hello" the output is "hello", which does
not start with the opening delimiter. -/
theorem cleanDocumentation_doxygen_counterexample :
    List.lookup "cpp" LANGUAGE_STYLE_MAP = some "doxygen" ∧
    cleanDocumentation ("hello".toList) "doxygen" = "hello".toList ∧
    ("/**".toList).isPrefixOf (cleanDocumentation ("hello".toList) "doxygen") =
      false := by
  refine ⟨?_, ?_, ?_⟩ <;> rfl

/-- C8: the comment clean-up step is idempotent on already-clean input — for
text that starts with the opening delimiter, ends with the closing delimiter
and contains no fenced code-block delimiters, cleaning twice with a
brace-comment style (jsdoc, tsdoc or javadoc) equals cleaning once, with no
duplicated delimiters. -/
theorem cleanDocumentation_idempotent :
    ∀ (doc : Str) (style : String),
      (style = "jsdoc" ∨ style = "tsdoc" ∨ style = "javadoc") →
      alreadyClean doc = true →
      cleanDocumentation (cleanDocumentation doc style) style =
        cleanDocumentation doc style := by
  intro doc style hst hcl
  rw [cleanDocumentation_id doc style hst hcl, cleanDocumentation_id doc style hst hcl]

/-- Witness for C8 at a concrete already-clean jsdoc block. -/
theorem cleanDocumentation_idempotent_witness :
    (("jsdoc" : String) = "jsdoc" ∨ ("jsdoc" : String) = "tsdoc" ∨
      ("jsdoc" : String) = "javadoc") ∧
    alreadyClean ("/** x */".toList) = true ∧
    cleanDocumentation (cleanDocumentation ("/** x */".toList) "jsdoc") "jsdoc" =
      cleanDocumentation ("/** x */".toList) "jsdoc" :=
  ⟨Or.inl rfl, by decide,
    cleanDocumentation_idempotent ("/** x */".toList) "jsdoc" (Or.inl rfl) (by decide)⟩
